import Mathlib

/-!
# Race simulation core — shallow embedding

This file embeds the `RaceEngine` class of the horse-racer repository
(`tests/helpers/page-objects/FormPage.ts`, the inlined `@/game/engine/RaceEngine`
module) into Lean and proves/refutes the specification claims about it.

Modelling conventions:
* JavaScript `number` arithmetic is modelled over `ℚ` (exact rationals).
* `Math.random()` draws are supplied externally: each tick receives a function
  `rand : ℕ → ℚ` giving the draw for the competitor at each list index
  (`Math.random()` returns a value in `[0,1)`; theorems that need the bound take
  it as a hypothesis).
* The `Map` fields `horses` / `positions` are modelled as lists in insertion
  order (the iteration order of a JS `Map`); competitor ids are assumed
  pairwise distinct where a claim depends on it, since a `Map` collapses
  duplicate keys.
* Operations that throw in JS (`[].reduce` with no initial value, a failed
  `Map.get(...)!` lookup) are modelled as `Option`-valued, `none` meaning the
  tick raises a `TypeError`.
* Wall-clock quantities (`Date.now()`-based `RaceFrame.time`) are not modelled;
  no claim mentions them.  `RaceResult.time` (computed from the frame count) is
  modelled exactly.
-/

/-- Embeds `export type TrackSurface = 'firm' | 'soft' | 'heavy'` -/
inductive TrackSurface
  | firm
  | soft
  | heavy
deriving DecidableEq

/-- Embeds `export type Weather = 'clear' | 'rain' | 'muddy'` -/
inductive Weather
  | clear
  | rain
  | muddy
deriving DecidableEq

/-- The fields of `interface Horse` that `RaceEngine` reads.  The remaining
fields (`name`, `color`, `weatherModifier`, `raceHistory`, …) are never read by
the engine and are omitted.  Ids are modelled as `ℕ` (only equality of ids is
ever used). -/
structure Horse where
  id : ℕ
  topSpeed : ℚ
  acceleration : ℚ
  stamina : ℚ
  consistency : ℚ
  trackPreference : TrackSurface
deriving DecidableEq

/-- Embeds `interface RaceConditions`. -/
structure RaceConditions where
  trackSurface : TrackSurface
  weather : Weather
  distance : ℚ
deriving DecidableEq

/-- Embeds `interface HorsePosition` (the engine's per-competitor progress record). -/
structure HorsePosition where
  horseId : ℕ
  position : ℚ
  velocity : ℚ
  stamina : ℚ
  finished : Bool
deriving DecidableEq

/-- Embeds `interface RaceResult` (`position` is the 1-based rank). -/
structure RaceResult where
  horseId : ℕ
  position : ℕ
  time : ℚ
  finalSpeed : ℚ
deriving DecidableEq

/-- Embeds `interface RaceFrame`, minus the unmodelled wall-clock `time` field. -/
structure RaceFrame where
  positions : List HorsePosition
  leader : ℕ
deriving DecidableEq

/-- Embeds `RaceEngine.getSurfaceBonus`: 1.1 on the preferred surface, otherwise the
penalty table (default 1.0 for the `||` fallback, which is unreachable). -/
def getSurfaceBonus (preference : TrackSurface) (surface : TrackSurface) : ℚ :=
  if preference = surface then 11/10
  else
    match preference, surface with
    | .firm, .soft => 19/20
    | .firm, .heavy => 9/10
    | .soft, .firm => 19/20
    | .soft, .heavy => 19/20
    | .heavy, .firm => 9/10
    | .heavy, .soft => 19/20
    | _, _ => 1

/-- Embeds `RaceEngine.applyStaminaFade`: no fade before 75% of the course, then a
linear fade whose strength is scaled by `1 - stamina/200`, capped at a 30%
reduction. -/
def applyStaminaFade (horse : Horse) (progress : ℚ) : ℚ :=
  if progress < 3/4 then 1
  else
    let fadeFactor := (progress - 3/4) / (1/4)
    let staminaDrain := 1 - horse.stamina / 200
    1 - fadeFactor * staminaDrain * (3/10)

/-- Embeds `RaceEngine.applyStaminaDrain`: effective stamina recomputed from position
(30% total drain over the full course). -/
def applyStaminaDrain (horse : Horse) (progress : ℚ) : ℚ :=
  horse.stamina * (1 - progress * (3/10))

/-- Embeds `RaceEngine.calculateVelocity`.  `rand` is the tick's `Math.random()` draw
for this competitor. -/
def calculateVelocity (horse : Horse) (horsePos : HorsePosition)
    (conditions : RaceConditions) (rand : ℚ) : ℚ :=
  let performance :=
    horse.topSpeed * (4/10) + horse.acceleration * (3/10) + horse.stamina * (3/10)
  let performance := performance * getSurfaceBonus horse.trackPreference conditions.trackSurface
  let performance :=
    match conditions.weather with
    | .rain => performance * (1 - (1/10) * (1 - horse.stamina / 100))
    | .muddy => performance * (1 - (15/100) * (1 - horse.acceleration / 100))
    | .clear => performance
  let varianceRange := 20 * (1 - horse.consistency / 100)
  let randomFactor := (rand - 1/2) * varianceRange
  let velocity := performance + randomFactor
  let velocity := velocity * applyStaminaFade horse horsePos.position
  let velocity :=
    if horsePos.position < 1/10 then velocity * (horsePos.position / (1/10))
    else velocity
  max 0 velocity

/-- The body of the `positions.forEach` loop in `RaceEngine.calculateNextFrame`
for one non-finished competitor: compute the velocity, advance the position by
`velocity * 0.003`, recompute effective stamina from the (unclamped) new
position, then clamp to 1 and set `finished` when the finish line is reached. -/
def updateHorse (horse : Horse) (conditions : RaceConditions) (rand : ℚ)
    (hp : HorsePosition) : HorsePosition :=
  let velocity := calculateVelocity horse hp conditions rand
  let newPos := hp.position + velocity * (3/1000)
  let newStamina := applyStaminaDrain horse newPos
  if 1 ≤ newPos then
    { hp with position := 1, velocity := velocity, stamina := newStamina, finished := true }
  else
    { hp with position := newPos, velocity := velocity, stamina := newStamina, finished := false }

/-- The `positions.forEach` loop of `RaceEngine.calculateNextFrame`, updating
every non-finished competitor in list order.  `i` is the list index of the
first competitor of `ps` in the whole progress list; `rand i` is the
`Math.random()` draw used for the competitor at index `i` (indexing the shared
random stream by competitor index is a relabelling of the sequential draws and
is immaterial because the draws are universally quantified).  `none` models the
`TypeError` raised by `this.horses.get(horsePos.horseId)!` when the id is
absent from the `horses` map (unreachable for states built by the
constructor). -/
def updateAllAux (horses : List Horse) (conditions : RaceConditions) (rand : ℕ → ℚ) :
    ℕ → List HorsePosition → Option (List HorsePosition)
  | _, [] => some []
  | i, hp :: rest =>
    if hp.finished then
      (updateAllAux horses conditions rand (i + 1) rest).map (fun l => hp :: l)
    else
      match horses.find? (fun h => h.id == hp.horseId) with
      | some horse =>
          (updateAllAux horses conditions rand (i + 1) rest).map
            (fun l => updateHorse horse conditions (rand i) hp :: l)
      | none => none

/-- The leader computation of `RaceEngine.calculateNextFrame`:
`positions.reduce((leader, pos) => pos.position > leader.position ? pos : leader)`.
`none` models the `TypeError` that `reduce` raises on an empty array with no
initial value. -/
def findLeader : List HorsePosition → Option HorsePosition
  | [] => none
  | hp :: rest =>
      some (rest.foldl (fun leader pos =>
        if leader.position < pos.position then pos else leader) hp)

/-- The state of a `RaceEngine` instance.  The `horses` map (id → Horse) and
the `positions` map (id → HorsePosition) are kept in insertion order as lists;
the retained `frames` history is modelled by its length, which is all
`finishRace` reads from it. -/
structure RaceState where
  horses : List Horse
  conditions : RaceConditions
  positions : List HorsePosition
  frameCount : ℕ
  isRunning : Bool
deriving DecidableEq

/-- Embeds `RaceEngine.calculateNextFrame`: update every competitor, then compute the
leader over the updated list and build the frame.  `none` models a thrown
`TypeError` (empty `reduce`, or a failed horse lookup). -/
def calculateNextFrame (s : RaceState) (rand : ℕ → ℚ) :
    Option (RaceFrame × List HorsePosition) :=
  match updateAllAux s.horses s.conditions rand 0 s.positions with
  | none => none
  | some newPos =>
      (findLeader newPos).map (fun leader => (⟨newPos, leader.horseId⟩, newPos))

/-- Embeds `Array.from(this.positions.values()).every(p => p.finished)`. -/
def allFinished (ps : List HorsePosition) : Bool :=
  ps.all (fun p => p.finished)

/-- The `.map((pos, index) => …)` of `RaceEngine.finishRace`, assigning the
1-based rank `index + 1` and the elapsed time `frames.length * 16.67`. -/
def assignRanks (frameCount : ℕ) : ℕ → List HorsePosition → List RaceResult
  | _, [] => []
  | i, p :: rest =>
      ⟨p.horseId, i + 1, (frameCount : ℚ) * (1667/100), p.velocity⟩ ::
        assignRanks frameCount (i + 1) rest

/-- The result construction of `RaceEngine.finishRace`: sort the progress list
with the comparator `(a, b) => b.position - a.position` — i.e. a stable sort in
descending order of `position` (`Array.prototype.sort` is stable) — then assign
dense 1-based ranks in that order. -/
def finishResults (frameCount : ℕ) (ps : List HorsePosition) : List RaceResult :=
  assignRanks frameCount 0 (ps.mergeSort (fun a b => decide (b.position ≤ a.position)))

/-- One observer invocation: a frame delivered to `onFrameUpdate`, or the
result list delivered to `onComplete`. -/
inductive RaceEvent
  | frame : RaceFrame → RaceEvent
  | complete : List RaceResult → RaceEvent
deriving DecidableEq

/-- One execution of the `simulateFrame` closure of `RaceEngine.simulate`:
return immediately when not running; otherwise compute the next frame, record
it, emit it to the frame observer, and either finish the race (emitting the
results and stopping) or leave the next tick scheduled.  `none` models an
exception thrown inside the tick. -/
def stepTick (s : RaceState) (rand : ℕ → ℚ) : Option (List RaceEvent × RaceState) :=
  if s.isRunning = false then some ([], s)
  else
    match calculateNextFrame s rand with
    | none => none
    | some (frame, newPos) =>
        let s1 : RaceState := { s with positions := newPos, frameCount := s.frameCount + 1 }
        if allFinished newPos then
          some ([RaceEvent.frame frame,
                 RaceEvent.complete (finishResults s1.frameCount newPos)],
                { s1 with isRunning := false })
        else
          some ([RaceEvent.frame frame], s1)

/-- Runs `n` scheduled executions of `simulateFrame`, collecting the observer
invocations in order; `rands t i` is the `Math.random()` draw for the
competitor at index `i` during tick `t`. -/
def simulate (rands : ℕ → ℕ → ℚ) : ℕ → RaceState → Option (List RaceEvent × RaceState)
  | 0, s => some ([], s)
  | n + 1, s =>
      match stepTick s (rands 0) with
      | none => none
      | some (evs, s1) =>
          match simulate (fun t => rands (t + 1)) n s1 with
          | none => none
          | some (evs2, s2) => some (evs ++ evs2, s2)

/-- The `RaceEngine` constructor: stores the race's horses and conditions,
leaves the positions map empty, and does not start ticking. -/
def construct (horses : List Horse) (conditions : RaceConditions) : RaceState :=
  { horses := horses, conditions := conditions, positions := [],
    frameCount := 0, isRunning := false }

/-- Embeds `RaceEngine.initializePositions`: one progress record per horse, position
0, velocity 0, stamina = the stamina attribute, not finished. -/
def initialPositions (horses : List Horse) : List HorsePosition :=
  horses.map (fun h => ⟨h.id, 0, 0, h.stamina, false⟩)

/-- Embeds `RaceEngine.start`: a no-op while already running; otherwise set
`isRunning`, initialize the positions, and begin the loop (the loop itself is
`simulate`). -/
def start (s : RaceState) : RaceState :=
  if s.isRunning then s
  else { s with isRunning := true, positions := initialPositions s.horses }

/-- Embeds `RaceEngine.stop`: clear the running flag and cancel the pending tick. -/
def stop (s : RaceState) : RaceState :=
  { s with isRunning := false }

/-- Embeds `RaceEngine.getProgress`: 0 for an empty positions map, otherwise the mean
position. -/
def getProgress (s : RaceState) : ℚ :=
  if s.positions.length = 0 then 0
  else (s.positions.foldl (fun sum pos => sum + pos.position) 0) / s.positions.length

/-- Embeds `RaceEngine.getCurrentPositions`: `Array.from(this.positions.values())` —
a fresh array whose elements are the engine's own `HorsePosition` objects (see
`writeThroughSnapshot` for the aliasing consequences). -/
def getCurrentPositions (s : RaceState) : List HorsePosition :=
  s.positions

/-- Number of completion-observer invocations in an event list. -/
def countComplete (tr : List RaceEvent) : ℕ :=
  tr.countP (fun e => match e with | .complete _ => true | _ => false)

/-- Replace the element at index `i` of a list by `f` of it (identity when out
of range). -/
def listModify : List HorsePosition → ℕ → (HorsePosition → HorsePosition) → List HorsePosition
  | [], _, _ => []
  | p :: rest, 0, f => f p :: rest
  | p :: rest, n + 1, f => p :: listModify rest n f

/-- Models the caller of `getCurrentPositions` assigning to a field of element
`i` of the returned array.  `Array.from(this.positions.values())` builds a
fresh array whose elements are the very `HorsePosition` objects stored in the
engine's internal `positions` map, so by JS object semantics the caller's
field assignment lands in the engine's own state: entry `i` of the internal
map is replaced.  (Mutating the returned array itself — push/pop/reorder —
only touches the fresh array and leaves the engine unaffected.) -/
def writeThroughSnapshot (s : RaceState) (i : ℕ) (f : HorsePosition → HorsePosition) :
    RaceState :=
  { s with positions := listModify s.positions i f }

/-- The `finished` flags of the end state of a run, in progress-list order. -/
def finishedFlags (o : Option (List RaceEvent × RaceState)) : Option (List Bool) :=
  o.map (fun r => r.2.positions.map (fun p => p.finished))

/-- The `(horseId, rank)` pairs of every result list delivered to the
completion observer during a run. -/
def completedRanks (o : Option (List RaceEvent × RaceState)) :
    Option (List (List (ℕ × ℕ))) :=
  o.map (fun r => r.1.filterMap (fun e =>
    match e with
    | .complete rs => some (rs.map (fun x => (x.horseId, x.position)))
    | _ => none))

/-- The spec's input contract: the four ability attributes lie on the 0–100
scale. -/
def StatsInRange (h : Horse) : Prop :=
  0 ≤ h.topSpeed ∧ h.topSpeed ≤ 100 ∧
  0 ≤ h.acceleration ∧ h.acceleration ≤ 100 ∧
  0 ≤ h.stamina ∧ h.stamina ≤ 100 ∧
  0 ≤ h.consistency ∧ h.consistency ≤ 100

/-- Per-competitor state invariant: position in `[0,1]`, effective stamina in
`[0, stamina attribute]`, and — while unfinished — effective stamina is the
drain formula evaluated at the current position. -/
def ProgressInv (h : Horse) (hp : HorsePosition) : Prop :=
  0 ≤ hp.position ∧ hp.position ≤ 1 ∧
  0 ≤ hp.stamina ∧ hp.stamina ≤ h.stamina ∧
  (hp.finished = false → hp.stamina = applyStaminaDrain h hp.position)

/-- A progress record belongs to a horse and satisfies the per-competitor
invariant. -/
def Tracks (h : Horse) (hp : HorsePosition) : Prop :=
  hp.horseId = h.id ∧ ProgressInv h hp

/-- Engine-state well-formedness: distinct ids, in-range stats, and the
progress list parallel to the horse list with each entry tracking its horse. -/
def StateWF (s : RaceState) : Prop :=
  (s.horses.map (fun h => h.id)).Nodup ∧
  (∀ h ∈ s.horses, StatsInRange h) ∧
  List.Forall₂ Tracks s.horses s.positions

/-- One tick moves a competitor forward and drains its stamina. -/
def MonoStep (hp hq : HorsePosition) : Prop :=
  hp.position ≤ hq.position ∧ hq.stamina ≤ hp.stamina

/-- A running state in which every competitor still sits on the start line:
the race is running, at least one competitor exists, and every progress entry
has position 0, is unfinished, and refers to a horse present in the horses
map. -/
def StuckState (s : RaceState) : Prop :=
  s.isRunning = true ∧ s.positions ≠ [] ∧
  ∀ hp ∈ s.positions, hp.position = 0 ∧ hp.finished = false ∧
    ∃ h ∈ s.horses, h.id = hp.horseId

/-! ## Claim theorems -/

/-- C7 — For every (preference, surface) pair, the surface modifier is 1.1
when the preference equals the race surface, 0.95 for the firm↔soft and
soft↔heavy mismatches, 0.9 for the firm↔heavy mismatch, and the mismatch table
is symmetric. -/
theorem C7_surface_modifier (p s : TrackSurface) :
    (p = s → getSurfaceBonus p s = 11/10) ∧
    getSurfaceBonus p s = getSurfaceBonus s p ∧
    ((p = .firm ∧ s = .soft) ∨ (p = .soft ∧ s = .firm) ∨
     (p = .soft ∧ s = .heavy) ∨ (p = .heavy ∧ s = .soft) →
      getSurfaceBonus p s = 19/20) ∧
    ((p = .firm ∧ s = .heavy) ∨ (p = .heavy ∧ s = .firm) →
      getSurfaceBonus p s = 9/10) := by
  rcases p <;> rcases s <;>
    refine ⟨?_, ?_, ?_, ?_⟩ <;> simp [getSurfaceBonus]

/-- Witness for C7 at concrete surface pairs. -/
theorem C7_surface_modifier_witness :
    getSurfaceBonus .soft .soft = 11/10 ∧
    getSurfaceBonus .soft .heavy = 19/20 ∧
    getSurfaceBonus .heavy .firm = 9/10 :=
  ⟨(C7_surface_modifier .soft .soft).1 rfl,
   (C7_surface_modifier .soft .heavy).2.2.1 (Or.inr (Or.inr (Or.inl ⟨rfl, rfl⟩))),
   (C7_surface_modifier .heavy .firm).2.2.2 (Or.inr ⟨rfl, rfl⟩)⟩

/-- C6 — The stamina-fade factor is exactly 1 below position 0.75; from
0.75 on it is the affine function `1 - (p - 3/4) * (6/5) * (1 - stamina/200)`
of the position (a linear decrease), a zero-stamina competitor at position 1.0
suffers exactly a 30% reduction, and a higher stamina attribute gives a
strictly smaller maximum reduction. -/
theorem C6_stamina_fade (h : Horse) :
    (∀ p : ℚ, p < 3/4 → applyStaminaFade h p = 1) ∧
    (∀ p : ℚ, 3/4 ≤ p →
      applyStaminaFade h p = 1 - (p - 3/4) * (6/5) * (1 - h.stamina / 200)) ∧
    (h.stamina = 0 → applyStaminaFade h 1 = 7/10) ∧
    (∀ h2 : Horse, h.stamina < h2.stamina →
      1 - applyStaminaFade h2 1 < 1 - applyStaminaFade h 1) := by
  refine ⟨?_, ?_, ?_, ?_⟩
  · intro p hp
    simp [applyStaminaFade, if_pos hp]
  · intro p hp
    rw [applyStaminaFade, if_neg (not_lt.2 hp)]
    ring
  · intro h0
    rw [applyStaminaFade, if_neg (by norm_num), h0]
    norm_num
  · intro h2 hlt
    rw [applyStaminaFade, if_neg (by norm_num),
        applyStaminaFade, if_neg (by norm_num)]
    ring_nf
    linarith

/-- Witness for C6 at a concrete horse and positions. -/
theorem C6_stamina_fade_witness :
    applyStaminaFade ⟨0, 0, 0, 0, 0, .firm⟩ (1/2) = 1 ∧
    applyStaminaFade ⟨0, 0, 0, 0, 0, .firm⟩ 1 = 7/10 ∧
    applyStaminaFade ⟨0, 0, 0, 80, 0, .firm⟩ (7/8) =
      1 - (7/8 - 3/4) * (6/5) * (1 - 80/200) ∧
    1 - applyStaminaFade ⟨0, 0, 0, 80, 0, .firm⟩ 1 <
      1 - applyStaminaFade ⟨0, 0, 0, 0, 0, .firm⟩ 1 :=
  ⟨(C6_stamina_fade ⟨0, 0, 0, 0, 0, .firm⟩).1 (1/2) (by norm_num),
   (C6_stamina_fade ⟨0, 0, 0, 0, 0, .firm⟩).2.2.1 rfl,
   (C6_stamina_fade ⟨0, 0, 0, 80, 0, .firm⟩).2.1 (7/8) (by norm_num),
   (C6_stamina_fade ⟨0, 0, 0, 0, 0, .firm⟩).2.2.2 ⟨0, 0, 0, 80, 0, .firm⟩ (by norm_num)⟩

/-- C10 — The per-tick velocity does not depend on the tracked effective
stamina: two progress records that differ only in the `stamina` field get the
same velocity from `calculateVelocity` (all stamina terms read the immutable
attribute `horse.stamina`). -/
theorem C10_velocity_ignores_tracked_stamina (h : Horse) (hp : HorsePosition)
    (conds : RaceConditions) (rand s1 s2 : ℚ) :
    calculateVelocity h { hp with stamina := s1 } conds rand =
      calculateVelocity h { hp with stamina := s2 } conds rand := rfl

/-- C4 counterexample — Immediately after construction (before `start()`),
the engine holds no progress entries at all: for a one-competitor race the
snapshot is empty rather than one entry per competitor. -/
theorem C4_counterexample :
    getCurrentPositions (construct [⟨0, 50, 50, 50, 50, .firm⟩] ⟨.firm, .clear, 1200⟩) = [] ∧
    (getCurrentPositions (construct [⟨0, 50, 50, 50, 50, .firm⟩] ⟨.firm, .clear, 1200⟩)).length ≠
      ([⟨0, 50, 50, 50, 50, .firm⟩] : List Horse).length := by
  constructor
  · rfl
  · simp [getCurrentPositions, construct]

/-- C4 amended — The progress entries are allocated by `start()`, not by
the constructor: after construction the snapshot is empty, and after `start()`
there is exactly one entry per competitor with position 0, velocity 0, stamina
equal to the competitor's stamina attribute and `finished = false`;
`getCurrentPositions` returns that snapshot. -/
theorem C4_amended (horses : List Horse) (conds : RaceConditions) :
    getCurrentPositions (construct horses conds) = [] ∧
    getCurrentPositions (start (construct horses conds)) =
      horses.map (fun h => ⟨h.id, 0, 0, h.stamina, false⟩) := by
  constructor
  · rfl
  · simp [getCurrentPositions, start, construct, initialPositions]

/-- C3 — With zero competitors, construction and `start()` are defined and
`getProgress()` returns 0; but the first scheduled tick throws (modelled as
`none`): `[].reduce` with no initial value raises a `TypeError` in the leader
computation, so the simulation does not stay error-free as claimed. -/
theorem C3_empty_first_tick_throws (conds : RaceConditions) (rand : ℕ → ℚ) :
    getProgress (construct [] conds) = 0 ∧
    getProgress (start (construct [] conds)) = 0 ∧
    stepTick (start (construct [] conds)) rand = none := by
  refine ⟨rfl, ?_, ?_⟩
  · simp [getProgress, start, construct, initialPositions]
  · simp [stepTick, start, construct, initialPositions, calculateNextFrame,
      updateAllAux, findLeader]

/-- C9 — `getCurrentPositions` does not return an immutable snapshot or
defensive copy: the returned array's elements are the engine's live progress
objects, so a caller writing `position := 1/2` through element 0 of the
returned array changes the engine's internal state — `getProgress` jumps from
0 to 1/2. -/
theorem C9_snapshot_write_corrupts_state :
    getProgress (start (construct [⟨0, 50, 50, 50, 50, .firm⟩] ⟨.firm, .clear, 1200⟩)) = 0 ∧
    getCurrentPositions (start (construct [⟨0, 50, 50, 50, 50, .firm⟩] ⟨.firm, .clear, 1200⟩)) =
      [⟨0, 0, 0, 50, false⟩] ∧
    getProgress (writeThroughSnapshot
      (start (construct [⟨0, 50, 50, 50, 50, .firm⟩] ⟨.firm, .clear, 1200⟩)) 0
      (fun p => { p with position := 1/2 })) = 1/2 := by
  refine ⟨?_, ?_, ?_⟩ <;>
    norm_num [getProgress, getCurrentPositions, writeThroughSnapshot, listModify,
      start, construct, initialPositions]

/-- A competitor standing exactly on the start line gets velocity 0: the
acceleration-ramp branch multiplies the velocity by `position / 0.1 = 0`. -/
theorem calculateVelocity_at_zero (h : Horse) (hp : HorsePosition)
    (conds : RaceConditions) (r : ℚ) (hpos : hp.position = 0) :
    calculateVelocity h hp conds r = 0 := by
  rw [calculateVelocity]
  simp [hpos]

/-- A tick applied to a competitor on the start line leaves it on the start
line, unfinished, with the same id. -/
theorem updateHorse_at_zero (h : Horse) (conds : RaceConditions) (r : ℚ)
    (hp : HorsePosition) (hpos : hp.position = 0) :
    (updateHorse h conds r hp).position = 0 ∧
    (updateHorse h conds r hp).finished = false ∧
    (updateHorse h conds r hp).horseId = hp.horseId := by
  have hv := calculateVelocity_at_zero h hp conds r hpos
  rw [updateHorse, hv, hpos]
  norm_num

/-- The forEach loop maps a list of start-line competitors to a list of
start-line competitors of the same length (and never throws). -/
theorem updateAllAux_stuck (horses : List Horse) (conds : RaceConditions)
    (rand : ℕ → ℚ) :
    ∀ (ps : List HorsePosition) (i : ℕ),
      (∀ hp ∈ ps, hp.position = 0 ∧ hp.finished = false ∧
        ∃ h ∈ horses, h.id = hp.horseId) →
      ∃ qs, updateAllAux horses conds rand i ps = some qs ∧
        qs.length = ps.length ∧
        ∀ hp ∈ qs, hp.position = 0 ∧ hp.finished = false ∧
          ∃ h ∈ horses, h.id = hp.horseId
  | [], i, _ => ⟨[], rfl, rfl, by simp⟩
  | hp :: rest, i, hinv => by
      obtain ⟨hpos, hfin, hhorse, hmem, hid⟩ := hinv hp (List.mem_cons_self hp rest)
      obtain ⟨qs, hqs, hlen, hqinv⟩ :=
        updateAllAux_stuck horses conds rand rest (i + 1)
          (fun x hx => hinv x (List.mem_cons_of_mem hp hx))
      have hfind : (horses.find? (fun h => h.id == hp.horseId)).isSome := by
        rw [List.find?_isSome]
        exact ⟨hhorse, hmem, by simp [hid]⟩
      obtain ⟨horse, hfound⟩ := Option.isSome_iff_exists.mp hfind
      have hhmem : horse ∈ horses := List.mem_of_find?_eq_some hfound
      have hhid : horse.id = hp.horseId := by
        have := List.find?_some hfound
        simpa using this
      refine ⟨updateHorse horse conds (rand i) hp :: qs, ?_, by simp [hlen], ?_⟩
      · rw [updateAllAux, if_neg (by simp [hfin]), hfound, hqs]
        rfl
      · intro x hx
        rcases List.mem_cons.mp hx with hx | hx
        · subst hx
          obtain ⟨h1, h2, h3⟩ := updateHorse_at_zero horse conds (rand i) hp hpos
          exact ⟨h1, h2, horse, hhmem, by rw [h3, hhid]⟩
        · exact hqinv x hx

/-- One scheduled tick of a stuck race emits exactly one frame and leaves the
race stuck. -/
theorem stepTick_stuck (s : RaceState) (rand : ℕ → ℚ) (hs : StuckState s) :
    ∃ f s', stepTick s rand = some ([RaceEvent.frame f], s') ∧ StuckState s' ∧
      s'.positions.length = s.positions.length := by
  obtain ⟨hrun, hne, hinv⟩ := hs
  obtain ⟨qs, hqs, hlen, hqinv⟩ :=
    updateAllAux_stuck s.horses s.conditions rand s.positions 0 (by
      intro hp hhp
      obtain ⟨h1, h2, h3, h4, h5⟩ := hinv hp hhp
      exact ⟨h1, h2, h3, h4, h5⟩)
  have hqne : qs ≠ [] := by
    intro hq
    apply hne
    cases hps : s.positions with
    | nil => rfl
    | cons a l => rw [hq, hps] at hlen; simp at hlen
  obtain ⟨q0, qrest, rfl⟩ : ∃ q0 qrest, qs = q0 :: qrest := by
    cases qs with
    | nil => exact absurd rfl hqne
    | cons a l => exact ⟨a, l, rfl⟩
  have hnotfin : allFinished (q0 :: qrest) = false := by
    have := (hqinv q0 (List.mem_cons_self q0 qrest)).2.1
    simp [allFinished, this]
  refine ⟨⟨q0 :: qrest, (findLeader (q0 :: qrest)).getD q0 |>.horseId⟩,
    { s with positions := q0 :: qrest, frameCount := s.frameCount + 1 }, ?_, ?_, ?_⟩
  · rw [stepTick, if_neg (by simp [hrun]), calculateNextFrame, hqs]
    simp [findLeader, hnotfin]
  · refine ⟨hrun, by simp, ?_⟩
    intro hp hhp
    exact hqinv hp hhp
  · simpa using hlen

/-- Any number of ticks of a stuck race emits frames only (never the
completion observer) and leaves the race stuck. -/
theorem simulate_stuck (rands : ℕ → ℕ → ℚ) (n : ℕ) :
    ∀ (s : RaceState), StuckState s →
      ∃ tr s', simulate rands n s = some (tr, s') ∧ countComplete tr = 0 ∧
        StuckState s' := by
  induction n generalizing rands with
  | zero =>
      intro s hs
      exact ⟨[], s, rfl, rfl, hs⟩
  | succ n ih =>
      intro s hs
      obtain ⟨f, s1, hstep, hs1, _⟩ := stepTick_stuck s (rands 0) hs
      obtain ⟨tr2, s2, hrun2, hcount2, hs2⟩ := ih (fun t => rands (t + 1)) s1 hs1
      refine ⟨[RaceEvent.frame f] ++ tr2, s2, ?_, ?_, hs2⟩
      · simp only [simulate, hstep, hrun2]
      · simp [countComplete] at hcount2 ⊢
        exact hcount2

/-- C2 — Refutation of finite termination: for every non-empty competitor
list (whatever the stats), every random stream, and every number of ticks, the
race started by `start()` emits no completion, stays running, and every
competitor is still at position 0 and unfinished: the acceleration ramp
multiplies the velocity by `position / 0.1 = 0` on the start line, so no
competitor can ever leave it and the race never reaches `Finished`. -/
theorem C2_race_never_finishes (horses : List Horse) (conds : RaceConditions)
    (rands : ℕ → ℕ → ℚ) (n : ℕ) (hne : horses ≠ []) :
    ∃ tr s', simulate rands n (start (construct horses conds)) = some (tr, s') ∧
      countComplete tr = 0 ∧ s'.isRunning = true ∧
      ∀ hp ∈ s'.positions, hp.position = 0 ∧ hp.finished = false := by
  have hstuck : StuckState (start (construct horses conds)) := by
    refine ⟨by simp [start, construct], ?_, ?_⟩
    · simp [start, construct, initialPositions]
      exact hne
    · intro hp hhp
      simp [start, construct, initialPositions] at hhp
      obtain ⟨h, hmem, rfl⟩ := hhp
      exact ⟨rfl, rfl, h, hmem, rfl⟩
  obtain ⟨tr, s', hrun, hcount, hs'⟩ := simulate_stuck rands n _ hstuck
  exact ⟨tr, s', hrun, hcount, hs'.1, fun hp hhp =>
    ⟨(hs'.2.2 hp hhp).1, (hs'.2.2 hp hhp).2.1⟩⟩

/-- Witness for C2: a single fast competitor, three ticks, constant random
draws. -/
theorem C2_race_never_finishes_witness :
    ∃ tr s', simulate (fun _ _ => 1/2) 3
        (start (construct [⟨0, 100, 100, 100, 100, .firm⟩] ⟨.firm, .clear, 1000⟩)) =
          some (tr, s') ∧
      countComplete tr = 0 ∧ s'.isRunning = true ∧
      ∀ hp ∈ s'.positions, hp.position = 0 ∧ hp.finished = false :=
  C2_race_never_finishes [⟨0, 100, 100, 100, 100, .firm⟩] ⟨.firm, .clear, 1000⟩
    (fun _ _ => 1/2) 3 (by simp)

/-- Once the running flag is down, `simulateFrame` returns at entry: no frame
is computed, no observer fires, the state is frozen. -/
theorem simulate_stopped (s : RaceState) (hs : s.isRunning = false) :
    ∀ (m : ℕ) (rands : ℕ → ℕ → ℚ), simulate rands m s = some ([], s) := by
  intro m
  induction m with
  | zero => intro rands; rfl
  | succ m ih =>
      intro rands
      have hstep : stepTick s (rands 0) = some ([], s) := by
        rw [stepTick, if_pos hs]
      simp only [simulate, hstep, ih (fun t => rands (t + 1))]
      rfl

/-- Shape of one running tick: either a single frame is emitted and the race
keeps running, or the finishing tick emits its frame followed immediately by
the one completion event and stops the loop. -/
theorem stepTick_cases (s : RaceState) (r : ℕ → ℚ) (evs : List RaceEvent)
    (s' : RaceState) (h : stepTick s r = some (evs, s')) (hrun : s.isRunning = true) :
    (∃ f, evs = [RaceEvent.frame f] ∧ s'.isRunning = true ∧
      allFinished s'.positions = false) ∨
    (∃ f rs, evs = [RaceEvent.frame f, RaceEvent.complete rs] ∧
      s'.isRunning = false ∧ allFinished s'.positions = true) := by
  rw [stepTick, if_neg (by simp [hrun])] at h
  cases heq : calculateNextFrame s r with
  | none => rw [heq] at h; exact absurd h (by simp)
  | some fp =>
      obtain ⟨frame, newPos⟩ := fp
      cases hfin : allFinished newPos with
      | true =>
          simp only [heq, hfin, if_true, Option.some.injEq, Prod.mk.injEq] at h
          obtain ⟨hevs, hs'⟩ := h
          subst hs'
          exact Or.inr ⟨frame, _, hevs.symm, rfl, hfin⟩
      | false =>
          simp only [heq, hfin, Bool.false_eq_true, if_false, Option.some.injEq,
            Prod.mk.injEq] at h
          obtain ⟨hevs, hs'⟩ := h
          subst hs'
          exact Or.inl ⟨frame, hevs.symm, hrun, hfin⟩

/-- C8 — In every run of the tick loop from a running state: the
completion observer fires at most once; if the run reaches the all-finished
state (over at least one tick) it fires exactly once; and whenever it fires,
its invocation is the very last event, coming strictly after the frame event of
the finishing tick, the loop has stopped, and no further tick does anything. -/
theorem C8_single_completion :
    ∀ (n : ℕ) (rands : ℕ → ℕ → ℚ) (s : RaceState) (tr : List RaceEvent)
      (s' : RaceState),
      simulate rands n s = some (tr, s') → s.isRunning = true →
      countComplete tr ≤ 1 ∧
      (allFinished s'.positions = true → 1 ≤ n → countComplete tr = 1) ∧
      (∀ rs, RaceEvent.complete rs ∈ tr →
        (∃ pre f, tr = pre ++ [RaceEvent.frame f, RaceEvent.complete rs] ∧
          countComplete pre = 0) ∧
        s'.isRunning = false ∧
        ∀ (m : ℕ) (rands2 : ℕ → ℕ → ℚ), simulate rands2 m s' = some ([], s')) := by
  intro n
  induction n with
  | zero =>
      intro rands s tr s' hrun hstart
      obtain ⟨htr, hs'⟩ : tr = [] ∧ s = s' := by
        rw [simulate] at hrun
        simp only [Option.some.injEq, Prod.mk.injEq] at hrun
        exact ⟨hrun.1.symm, hrun.2⟩
      subst htr
      refine ⟨by simp [countComplete], by omega, ?_⟩
      intro rs hmem
      simp at hmem
  | succ n ih =>
      intro rands s tr s' hrun hstart
      rw [simulate] at hrun
      cases hstep : stepTick s (rands 0) with
      | none => rw [hstep] at hrun; exact absurd hrun (by simp)
      | some p =>
          obtain ⟨evs, s1⟩ := p
          rw [hstep] at hrun
          cases hrest : simulate (fun t => rands (t + 1)) n s1 with
          | none => simp [hrest] at hrun
          | some q =>
              obtain ⟨tr2, s2⟩ := q
              simp only [hrest, Option.some.injEq, Prod.mk.injEq] at hrun
              obtain ⟨htr, hs2⟩ := hrun
              subst hs2
              subst htr
              rcases stepTick_cases s (rands 0) evs s1 hstep hstart with
                ⟨f, hevs, hrun1, hnotfin⟩ | ⟨f, rs0, hevs, hstop1, hfin1⟩
              · subst hevs
                obtain ⟨ih1, ih2, ih3⟩ :=
                  ih (fun t => rands (t + 1)) s1 tr2 s2 hrest hrun1
                refine ⟨?_, ?_, ?_⟩
                · simpa [countComplete] using ih1
                · intro hfin _
                  cases n with
                  | zero =>
                      obtain ⟨htr2, hs12⟩ : tr2 = [] ∧ s1 = s2 := by
                        rw [simulate] at hrest
                        simp only [Option.some.injEq, Prod.mk.injEq] at hrest
                        exact ⟨hrest.1.symm, hrest.2⟩
                      rw [hs12, hfin] at hnotfin
                      exact absurd hnotfin (by simp)
                  | succ m =>
                      have := ih2 hfin (by omega)
                      simpa [countComplete] using this
                · intro rs hmem
                  have hmem2 : RaceEvent.complete rs ∈ tr2 := by
                    rcases List.mem_append.mp hmem with hm | hm
                    · simp at hm
                    · exact hm
                  obtain ⟨⟨pre, f2, hpre, hpc⟩, hstop, hfrozen⟩ := ih3 rs hmem2
                  refine ⟨⟨RaceEvent.frame f :: pre, f2, ?_, ?_⟩, hstop, hfrozen⟩
                  · rw [hpre]; rfl
                  · simpa [countComplete] using hpc
              · subst hevs
                obtain ⟨htr2, hs12⟩ : tr2 = [] ∧ s1 = s2 := by
                  rw [simulate_stopped s1 hstop1 n (fun t => rands (t + 1))] at hrest
                  simp only [Option.some.injEq, Prod.mk.injEq] at hrest
                  exact ⟨hrest.1.symm, hrest.2⟩
                subst hs12
                subst htr2
                refine ⟨by simp [countComplete], fun _ _ => by simp [countComplete], ?_⟩
                intro rs hmem
                have hrs : rs = rs0 := by
                  simp only [List.append_nil, List.mem_cons, List.not_mem_nil,
                    or_false] at hmem
                  rcases hmem with hm | hm
                  · exact absurd hm (by simp)
                  · exact (RaceEvent.complete.injEq rs rs0 ▸ hm)
                subst hrs
                refine ⟨⟨[], f, by simp, rfl⟩, hstop1, ?_⟩
                intro m rands2
                exact simulate_stopped s1 hstop1 m rands2

/-- Witness for C8: one competitor at position 0.7 finishes on the next tick;
the trace is that tick's frame followed by exactly one completion. -/
theorem C8_single_completion_witness :
    countComplete [RaceEvent.frame ⟨[⟨0, 1, 110, 691/10, true⟩], 0⟩,
      RaceEvent.complete [⟨0, 1, 1667/100, 110⟩]] = 1 :=
  (C8_single_completion 1 (fun _ _ => 1/2)
    ⟨[⟨0, 100, 100, 100, 100, .firm⟩], ⟨.firm, .clear, 1000⟩,
      [⟨0, 7/10, 0, 100, false⟩], 0, true⟩
    [RaceEvent.frame ⟨[⟨0, 1, 110, 691/10, true⟩], 0⟩,
      RaceEvent.complete [⟨0, 1, 1667/100, 110⟩]]
    ⟨[⟨0, 100, 100, 100, 100, .firm⟩], ⟨.firm, .clear, 1000⟩,
      [⟨0, 1, 110, 691/10, true⟩], 1, false⟩
    (by norm_num [simulate, stepTick, calculateNextFrame, updateAllAux, findLeader,
      allFinished, finishResults, assignRanks, updateHorse, calculateVelocity,
      getSurfaceBonus, applyStaminaFade, applyStaminaDrain, List.find?])
    rfl).2.1 (by norm_num [allFinished]) (by norm_num)

/-- C1 counterexample — Competitor 1 (second in the progress collection)
finishes on tick 1 while competitor 0 (first in the collection) is still
running and finishes only on tick 2; yet the delivered results rank
competitor 0 first and competitor 1 second: the ranking follows the order of
the internal progress collection, not the order in which competitors became
finished. -/
theorem C1_counterexample :
    finishedFlags (simulate (fun _ _ => 1/2) 1
      ⟨[⟨0, 100, 100, 100, 100, .soft⟩, ⟨1, 100, 100, 100, 100, .firm⟩],
        ⟨.firm, .clear, 1000⟩,
        [⟨0, 11/25, 0, 100, false⟩, ⟨1, 7/10, 0, 100, false⟩], 0, true⟩) =
      some [false, true] ∧
    completedRanks (simulate (fun _ _ => 1/2) 2
      ⟨[⟨0, 100, 100, 100, 100, .soft⟩, ⟨1, 100, 100, 100, 100, .firm⟩],
        ⟨.firm, .clear, 1000⟩,
        [⟨0, 11/25, 0, 100, false⟩, ⟨1, 7/10, 0, 100, false⟩], 0, true⟩) =
      some [[(0, 1), (1, 2)]] := by
  have hsort : List.mergeSort
      [(⟨0, 1, 95, 697/10, true⟩ : HorsePosition), ⟨1, 1, 110, 691/10, true⟩]
      (fun a b => decide (b.position ≤ a.position)) =
      [(⟨0, 1, 95, 697/10, true⟩ : HorsePosition), ⟨1, 1, 110, 691/10, true⟩] := by
    apply List.mergeSort_of_sorted
    constructor
    · intro b hb
      simp only [List.mem_singleton] at hb
      subst hb
      norm_num
    · exact List.pairwise_singleton _ _
  have hb1 : getSurfaceBonus TrackSurface.soft TrackSurface.firm = 19/20 := rfl
  have hb2 : getSurfaceBonus TrackSurface.firm TrackSurface.firm = 11/10 := rfl
  have hbeq : ((0 : ℕ) == (1 : ℕ)) = false := rfl
  have hstep1 : stepTick
      ⟨[⟨0, 100, 100, 100, 100, .soft⟩, ⟨1, 100, 100, 100, 100, .firm⟩],
        ⟨.firm, .clear, 1000⟩,
        [⟨0, 11/25, 0, 100, false⟩, ⟨1, 7/10, 0, 100, false⟩], 0, true⟩
      (fun _ => (1 : ℚ)/2) =
      some ([RaceEvent.frame
          ⟨[⟨0, 29/40, 95, 313/4, false⟩, ⟨1, 1, 110, 691/10, true⟩], 1⟩],
        ⟨[⟨0, 100, 100, 100, 100, .soft⟩, ⟨1, 100, 100, 100, 100, .firm⟩],
          ⟨.firm, .clear, 1000⟩,
          [⟨0, 29/40, 95, 313/4, false⟩, ⟨1, 1, 110, 691/10, true⟩], 1, true⟩) := by
    norm_num [stepTick, calculateNextFrame, updateAllAux, updateHorse,
      calculateVelocity, hb1, hb2, hbeq, applyStaminaFade, applyStaminaDrain,
      allFinished, findLeader, List.find?]
  have hstep2 : stepTick
      ⟨[⟨0, 100, 100, 100, 100, .soft⟩, ⟨1, 100, 100, 100, 100, .firm⟩],
        ⟨.firm, .clear, 1000⟩,
        [⟨0, 29/40, 95, 313/4, false⟩, ⟨1, 1, 110, 691/10, true⟩], 1, true⟩
      (fun _ => (1 : ℚ)/2) =
      some ([RaceEvent.frame
          ⟨[⟨0, 1, 95, 697/10, true⟩, ⟨1, 1, 110, 691/10, true⟩], 0⟩,
        RaceEvent.complete [⟨0, 1, 1667/50, 95⟩, ⟨1, 2, 1667/50, 110⟩]],
        ⟨[⟨0, 100, 100, 100, 100, .soft⟩, ⟨1, 100, 100, 100, 100, .firm⟩],
          ⟨.firm, .clear, 1000⟩,
          [⟨0, 1, 95, 697/10, true⟩, ⟨1, 1, 110, 691/10, true⟩], 2, false⟩) := by
    norm_num [stepTick, calculateNextFrame, updateAllAux, updateHorse,
      calculateVelocity, hb1, hb2, hbeq, applyStaminaFade, applyStaminaDrain,
      allFinished, findLeader, finishResults, assignRanks, hsort, List.find?]
  have hsim1 : simulate (fun _ _ => (1 : ℚ)/2) 1
      ⟨[⟨0, 100, 100, 100, 100, .soft⟩, ⟨1, 100, 100, 100, 100, .firm⟩],
        ⟨.firm, .clear, 1000⟩,
        [⟨0, 11/25, 0, 100, false⟩, ⟨1, 7/10, 0, 100, false⟩], 0, true⟩ =
      some ([RaceEvent.frame
          ⟨[⟨0, 29/40, 95, 313/4, false⟩, ⟨1, 1, 110, 691/10, true⟩], 1⟩],
        ⟨[⟨0, 100, 100, 100, 100, .soft⟩, ⟨1, 100, 100, 100, 100, .firm⟩],
          ⟨.firm, .clear, 1000⟩,
          [⟨0, 29/40, 95, 313/4, false⟩, ⟨1, 1, 110, 691/10, true⟩], 1, true⟩) := by
    simp only [simulate, hstep1, List.append_nil]
  have hsim2 : simulate (fun _ _ => (1 : ℚ)/2) 2
      ⟨[⟨0, 100, 100, 100, 100, .soft⟩, ⟨1, 100, 100, 100, 100, .firm⟩],
        ⟨.firm, .clear, 1000⟩,
        [⟨0, 11/25, 0, 100, false⟩, ⟨1, 7/10, 0, 100, false⟩], 0, true⟩ =
      some ([RaceEvent.frame
          ⟨[⟨0, 29/40, 95, 313/4, false⟩, ⟨1, 1, 110, 691/10, true⟩], 1⟩,
        RaceEvent.frame
          ⟨[⟨0, 1, 95, 697/10, true⟩, ⟨1, 1, 110, 691/10, true⟩], 0⟩,
        RaceEvent.complete [⟨0, 1, 1667/50, 95⟩, ⟨1, 2, 1667/50, 110⟩]],
        ⟨[⟨0, 100, 100, 100, 100, .soft⟩, ⟨1, 100, 100, 100, 100, .firm⟩],
          ⟨.firm, .clear, 1000⟩,
          [⟨0, 1, 95, 697/10, true⟩, ⟨1, 1, 110, 691/10, true⟩], 2, false⟩) := by
    simp only [simulate, hstep1, hstep2, List.append_nil]
    rfl
  constructor
  · rw [hsim1]
    rfl
  · rw [hsim2]
    rfl

/-- Lemma: `finishRace`'s `.map((pos, index) => …)` keeps the competitor order of its
input. -/
theorem assignRanks_map_horseId (n : ℕ) :
    ∀ (i : ℕ) (ps : List HorsePosition),
      (assignRanks n i ps).map (fun r => r.horseId) = ps.map (fun p => p.horseId)
  | _, [] => rfl
  | i, p :: rest => by
      simp [assignRanks, assignRanks_map_horseId n (i + 1) rest]

/-- Lemma: `finishRace`'s `.map((pos, index) => …)` assigns the consecutive ranks
`i + 1, i + 2, …` down the list. -/
theorem assignRanks_map_rank (n : ℕ) :
    ∀ (i : ℕ) (ps : List HorsePosition),
      (assignRanks n i ps).map (fun r => r.position) = List.range' (i + 1) ps.length
  | _, [] => rfl
  | i, p :: rest => by
      simp [assignRanks, assignRanks_map_rank n (i + 1) rest, List.range'_succ,
        Nat.add_right_comm]

/-- C1 amended — The delivered Result list is the stable descending-by-
position sort of the internal progress collection with dense 1-based ranks
assigned in that order; since every finisher sits at exactly position 1.0, the
order among finishers is their order in the internal progress collection
(insertion order), irrespective of the tick at which each competitor's
`finished` flag became true. -/
theorem C1_amended_ranking_by_collection_order (frameCount : ℕ)
    (ps : List HorsePosition) (hall : ∀ p ∈ ps, p.position = 1) :
    (finishResults frameCount ps).map (fun r => r.horseId) =
      ps.map (fun p => p.horseId) ∧
    (finishResults frameCount ps).map (fun r => r.position) =
      List.range' 1 ps.length := by
  have hsorted : List.mergeSort ps (fun a b => decide (b.position ≤ a.position)) = ps := by
    apply List.mergeSort_of_sorted
    induction ps with
    | nil => exact List.Pairwise.nil
    | cons p rest ih =>
        refine List.Pairwise.cons ?_ (ih (fun q hq => hall q (List.mem_cons_of_mem p hq)))
        intro q hq
        have hp := hall p (List.mem_cons_self p rest)
        have hq2 := hall q (List.mem_cons_of_mem p hq)
        rw [hp, hq2]
        norm_num
  rw [finishResults, hsorted]
  exact ⟨assignRanks_map_horseId frameCount 0 ps,
    by simpa using assignRanks_map_rank frameCount 0 ps⟩

/-- Witness for the amended C1 on a concrete two-competitor progress list. -/
theorem C1_amended_ranking_witness :
    (finishResults 3 [⟨0, 1, 0, 0, true⟩, ⟨5, 1, 0, 0, true⟩]).map
      (fun r => r.horseId) = [0, 5] ∧
    (finishResults 3 [⟨0, 1, 0, 0, true⟩, ⟨5, 1, 0, 0, true⟩]).map
      (fun r => r.position) = [1, 2] := by
  have h := C1_amended_ranking_by_collection_order 3
    [⟨0, 1, 0, 0, true⟩, ⟨5, 1, 0, 0, true⟩] (by
      intro p hp
      rcases List.mem_cons.mp hp with h | h
      · rw [h]
      · rw [List.mem_singleton.mp h])
  simpa using h

/-- The surface modifier lies between 0.9 and 1.1. -/
theorem getSurfaceBonus_bounds (p s : TrackSurface) :
    9/10 ≤ getSurfaceBonus p s ∧ getSurfaceBonus p s ≤ 11/10 := by
  rcases p <;> rcases s <;> refine ⟨?_, ?_⟩ <;> simp [getSurfaceBonus] <;> norm_num

/-- For positions in `[0,1]` and stamina in `[0,100]`, the fade factor lies in
`[0.7, 1]`. -/
theorem applyStaminaFade_bounds (h : Horse) (p : ℚ) (hp0 : 0 ≤ p) (hp1 : p ≤ 1)
    (hst0 : 0 ≤ h.stamina) (hst1 : h.stamina ≤ 100) :
    7/10 ≤ applyStaminaFade h p ∧ applyStaminaFade h p ≤ 1 := by
  rw [applyStaminaFade]
  split_ifs with hlt
  · norm_num
  · push_neg at hlt
    constructor <;> nlinarith

/-- Arithmetic core of the velocity upper bound: a modified performance in
`[0, 110]`, a random swing of at most `+10`, a fade factor in `[0, 1]` and an
acceleration ramp in `[0, 1]` keep the pre-clamp velocity at or below 120. -/
theorem velocity_expr_le (P rf F pos : ℚ) (hP0 : 0 ≤ P) (hP1 : P ≤ 110)
    (hrf1 : rf ≤ 10) (hF0 : 0 ≤ F) (hF1 : F ≤ 1) (hpos0 : 0 ≤ pos) :
    max 0 (if pos < 1/10 then (P + rf) * F * (pos / (1/10)) else (P + rf) * F) ≤ 120 := by
  have hA : (P + rf) * F ≤ 120 := by
    rcases le_or_lt 0 (P + rf) with hx | hx
    · nlinarith
    · nlinarith
  refine max_le (by norm_num) ?_
  split_ifs with hlt
  · have hc0 : 0 ≤ pos / (1/10) := by positivity
    have hc1 : pos / (1/10) ≤ 1 := by
      rw [div_le_one (by norm_num)]
      linarith
    rcases le_or_lt 0 ((P + rf) * F) with hx | hx
    · nlinarith
    · nlinarith
  · exact hA

/-- With in-range stats and a unit-interval random draw, the velocity of a
competitor inside the course is between 0 and 120. -/
theorem calculateVelocity_bounds (h : Horse) (hp : HorsePosition)
    (conds : RaceConditions) (r : ℚ) (hs : StatsInRange h)
    (hr0 : 0 ≤ r) (hr1 : r ≤ 1) (hp0 : 0 ≤ hp.position) (hp1 : hp.position ≤ 1) :
    0 ≤ calculateVelocity h hp conds r ∧ calculateVelocity h hp conds r ≤ 120 := by
  obtain ⟨ts0, ts1, ac0, ac1, st0, st1, co0, co1⟩ := hs
  refine ⟨le_max_left 0 _, ?_⟩
  obtain ⟨csurf, cw, cd⟩ := conds
  obtain ⟨hb0, hb1⟩ := getSurfaceBonus_bounds h.trackPreference csurf
  obtain ⟨hf0, hf1⟩ := applyStaminaFade_bounds h hp.position hp0 hp1 st0 st1
  have hf0' : (0:ℚ) ≤ applyStaminaFade h hp.position := le_trans (by norm_num) hf0
  have hbase0 : 0 ≤ h.topSpeed * (4/10) + h.acceleration * (3/10) + h.stamina * (3/10) := by
    nlinarith
  have hbase1 : h.topSpeed * (4/10) + h.acceleration * (3/10) + h.stamina * (3/10) ≤ 100 := by
    linarith
  have hperf0 : 0 ≤ (h.topSpeed * (4/10) + h.acceleration * (3/10) + h.stamina * (3/10)) *
      getSurfaceBonus h.trackPreference csurf := by nlinarith
  have hperf1 : (h.topSpeed * (4/10) + h.acceleration * (3/10) + h.stamina * (3/10)) *
      getSurfaceBonus h.trackPreference csurf ≤ 110 := by nlinarith
  have hrfu : (r - 1/2) * (20 * (1 - h.consistency / 100)) ≤ 10 := by nlinarith
  have hwr0 : (0:ℚ) ≤ 1 - 1/10 * (1 - h.stamina / 100) := by linarith
  have hwr1 : 1 - 1/10 * (1 - h.stamina / 100) ≤ (1:ℚ) := by linarith
  have hwm0 : (0:ℚ) ≤ 1 - 15/100 * (1 - h.acceleration / 100) := by linarith
  have hwm1 : 1 - 15/100 * (1 - h.acceleration / 100) ≤ (1:ℚ) := by linarith
  rcases cw with _ | _ | _
  · simp only [calculateVelocity]
    exact velocity_expr_le _ _ _ _ hperf0 hperf1 hrfu hf0' hf1 hp0
  · simp only [calculateVelocity]
    exact velocity_expr_le _ _ _ _ (mul_nonneg hperf0 hwr0)
      (le_trans (mul_le_of_le_one_right hperf0 hwr1) hperf1) hrfu hf0' hf1 hp0
  · simp only [calculateVelocity]
    exact velocity_expr_le _ _ _ _ (mul_nonneg hperf0 hwm0)
      (le_trans (mul_le_of_le_one_right hperf0 hwm1) hperf1) hrfu hf0' hf1 hp0

/-- Lemma: `updateHorse` keeps the competitor id. -/
theorem updateHorse_horseId (h : Horse) (conds : RaceConditions) (r : ℚ)
    (hp : HorsePosition) : (updateHorse h conds r hp).horseId = hp.horseId := by
  rw [updateHorse]
  split_ifs <;> rfl

/-- One tick on an unfinished competitor preserves the per-competitor
invariant, never moves it backwards, and never increases its effective
stamina. -/
theorem updateHorse_step (h : Horse) (conds : RaceConditions) (r : ℚ)
    (hp : HorsePosition) (hs : StatsInRange h) (hr0 : 0 ≤ r) (hr1 : r ≤ 1)
    (inv : ProgressInv h hp) (hfin : hp.finished = false) :
    ProgressInv h (updateHorse h conds r hp) ∧
    MonoStep hp (updateHorse h conds r hp) := by
  obtain ⟨hpos0, hpos1, hstam0, hstam1, hformula⟩ := inv
  have hst0 : 0 ≤ h.stamina := hs.2.2.2.2.1
  obtain ⟨hv0, hv1⟩ := calculateVelocity_bounds h hp conds r hs hr0 hr1 hpos0 hpos1
  have hformula' := hformula hfin
  rw [applyStaminaDrain] at hformula'
  have hnp0 : hp.position ≤ hp.position + calculateVelocity h hp conds r * (3/1000) := by
    nlinarith
  have hnp1 : hp.position + calculateVelocity h hp conds r * (3/1000) ≤ 34/25 := by
    nlinarith
  have hdrain0 : 0 ≤ applyStaminaDrain h
      (hp.position + calculateVelocity h hp conds r * (3/1000)) := by
    rw [applyStaminaDrain]
    nlinarith
  have hdrain1 : applyStaminaDrain h
      (hp.position + calculateVelocity h hp conds r * (3/1000)) ≤ hp.stamina := by
    rw [applyStaminaDrain, hformula']
    nlinarith
  have hdrain2 : applyStaminaDrain h
      (hp.position + calculateVelocity h hp conds r * (3/1000)) ≤ h.stamina := by
    rw [applyStaminaDrain]
    nlinarith
  rw [updateHorse]
  split_ifs with hge
  · refine ⟨⟨by norm_num, le_refl 1, hdrain0, hdrain2, ?_⟩, hpos1, hdrain1⟩
    intro hcontr
    exact absurd hcontr (by simp)
  · push_neg at hge
    refine ⟨⟨by linarith, le_of_lt hge, hdrain0, hdrain2, ?_⟩, hnp0, hdrain1⟩
    intro _
    rfl

/-- With pairwise-distinct ids, the id lookup in the horses map returns
exactly the horse that owns the id (the JS `Map` built from the horse list). -/
theorem find?_id_of_nodup :
    ∀ (horses : List Horse), (horses.map (fun h => h.id)).Nodup →
      ∀ h ∈ horses, horses.find? (fun x => x.id == h.id) = some h
  | [], _, h, hmem => absurd hmem (List.not_mem_nil h)
  | h0 :: rest, hnd, h, hmem => by
      rcases List.mem_cons.mp hmem with rfl | hmem2
      · exact List.find?_cons_of_pos _ (by simp)
      · have hnd0 : (h0.id :: rest.map (fun h => h.id)).Nodup := by
          simpa only [List.map_cons] using hnd
        have hnd' := List.nodup_cons.mp hnd0
        have hne : (h0.id == h.id) = false := by
          simp only [beq_eq_false_iff_ne, ne_eq]
          intro heq
          exact hnd'.1 (heq ▸ List.mem_map_of_mem (fun x => x.id) hmem2)
        rw [List.find?_cons_of_neg _ (by simp [hne])]
        exact find?_id_of_nodup rest hnd'.2 h hmem2

/-- The forEach loop over a well-formed horse/progress pairing succeeds and
preserves the pairing; each competitor moves forward and drains stamina. -/
theorem updateAllAux_wf (horsesAll : List Horse) (conds : RaceConditions)
    (rand : ℕ → ℚ) (hrand : ∀ j, 0 ≤ rand j ∧ rand j ≤ 1) :
    ∀ (hs : List Horse) (ps : List HorsePosition) (i : ℕ),
      List.Forall₂ Tracks hs ps →
      (∀ h ∈ hs, StatsInRange h) →
      (∀ h ∈ hs, horsesAll.find? (fun x => x.id == h.id) = some h) →
      ∃ qs, updateAllAux horsesAll conds rand i ps = some qs ∧
        List.Forall₂ Tracks hs qs ∧ List.Forall₂ MonoStep ps qs := by
  intro hs
  induction hs with
  | nil =>
      intro ps i hf _ _
      cases hf
      exact ⟨[], rfl, List.Forall₂.nil, List.Forall₂.nil⟩
  | cons h hrest ih =>
      intro ps i hf hstats hfind
      cases hf with
      | cons hhp htail =>
          rename_i hp ps'
          obtain ⟨hid, hinv⟩ := hhp
          obtain ⟨qs, hqs, hf2, hm2⟩ := ih ps' (i + 1) htail
            (fun x hx => hstats x (List.mem_cons_of_mem h hx))
            (fun x hx => hfind x (List.mem_cons_of_mem h hx))
          cases hfin : hp.finished with
          | true =>
              refine ⟨hp :: qs, ?_, ?_, ?_⟩
              · rw [updateAllAux, if_pos hfin, hqs]
                rfl
              · exact List.Forall₂.cons ⟨hid, hinv⟩ hf2
              · exact List.Forall₂.cons ⟨le_refl _, le_refl _⟩ hm2
          | false =>
              have hfind0 : horsesAll.find? (fun x => x.id == hp.horseId) = some h := by
                rw [hid]
                exact hfind h (List.mem_cons_self h hrest)
              obtain ⟨hinv', hmono'⟩ := updateHorse_step h conds (rand i) hp
                (hstats h (List.mem_cons_self h hrest)) (hrand i).1 (hrand i).2 hinv hfin
              refine ⟨updateHorse h conds (rand i) hp :: qs, ?_, ?_, ?_⟩
              · rw [updateAllAux, if_neg (by simp [hfin]), hfind0, hqs]
                rfl
              · exact List.Forall₂.cons
                  ⟨by rw [updateHorse_horseId, hid], hinv'⟩ hf2
              · exact List.Forall₂.cons hmono' hm2

/-- Forward progress composes across ticks. -/
theorem forall₂_monoStep_trans :
    ∀ {l1 l2 l3 : List HorsePosition}, List.Forall₂ MonoStep l1 l2 →
      List.Forall₂ MonoStep l2 l3 → List.Forall₂ MonoStep l1 l3 := by
  intro l1 l2 l3 h12
  induction h12 generalizing l3 with
  | nil =>
      intro h23
      cases h23
      exact List.Forall₂.nil
  | cons hab htail ih =>
      intro h23
      cases h23 with
      | cons hbc h23tail =>
          exact List.Forall₂.cons
            ⟨le_trans hab.1 hbc.1, le_trans hbc.2 hab.2⟩ (ih h23tail)

/-- One successful tick preserves state well-formedness and moves every
competitor forward (weakly) while draining stamina (weakly); the horses map is
untouched. -/
theorem stepTick_wf (s : RaceState) (rand : ℕ → ℚ) (evs : List RaceEvent)
    (s' : RaceState) (hrand : ∀ j, 0 ≤ rand j ∧ rand j ≤ 1)
    (hwf : StateWF s) (h : stepTick s rand = some (evs, s')) :
    StateWF s' ∧ List.Forall₂ MonoStep s.positions s'.positions ∧
    s'.horses = s.horses := by
  obtain ⟨hnd, hstats, hf⟩ := hwf
  by_cases hrun : s.isRunning = false
  · rw [stepTick, if_pos hrun] at h
    simp only [Option.some.injEq, Prod.mk.injEq] at h
    obtain ⟨-, hs'⟩ := h
    subst hs'
    exact ⟨⟨hnd, hstats, hf⟩,
      List.forall₂_same.mpr (fun x _ => ⟨le_refl _, le_refl _⟩), rfl⟩
  · rw [stepTick, if_neg hrun] at h
    obtain ⟨qs, hqs, hf2, hm2⟩ := updateAllAux_wf s.horses s.conditions rand hrand
      s.horses s.positions 0 hf hstats
      (fun x hx => find?_id_of_nodup s.horses hnd x hx)
    rw [calculateNextFrame] at h
    cases hlead : findLeader qs with
    | none => simp [hqs, hlead] at h
    | some leader =>
        simp only [hqs, hlead, Option.map_some'] at h
        cases hfin : allFinished qs with
        | true =>
            rw [hfin] at h
            simp only [if_true, Option.some.injEq, Prod.mk.injEq] at h
            obtain ⟨-, hs'⟩ := h
            subst hs'
            exact ⟨⟨hnd, hstats, hf2⟩, hm2, rfl⟩
        | false =>
            rw [hfin] at h
            simp only [Bool.false_eq_true, if_false, Option.some.injEq,
              Prod.mk.injEq] at h
            obtain ⟨-, hs'⟩ := h
            subst hs'
            exact ⟨⟨hnd, hstats, hf2⟩, hm2, rfl⟩

/-- Any number of successful ticks preserves well-formedness and accumulates
forward progress; the horses map is untouched. -/
theorem simulate_wf :
    ∀ (n : ℕ) (rands : ℕ → ℕ → ℚ) (s : RaceState) (tr : List RaceEvent)
      (s' : RaceState),
      (∀ t j, 0 ≤ rands t j ∧ rands t j ≤ 1) → StateWF s →
      simulate rands n s = some (tr, s') →
      StateWF s' ∧ List.Forall₂ MonoStep s.positions s'.positions ∧
      s'.horses = s.horses := by
  intro n
  induction n with
  | zero =>
      intro rands s tr s' _ hwf h
      rw [simulate] at h
      simp only [Option.some.injEq, Prod.mk.injEq] at h
      obtain ⟨-, hs'⟩ := h
      subst hs'
      exact ⟨hwf, List.forall₂_same.mpr (fun x _ => ⟨le_refl _, le_refl _⟩), rfl⟩
  | succ n ih =>
      intro rands s tr s' hrand hwf h
      rw [simulate] at h
      cases hstep : stepTick s (rands 0) with
      | none => rw [hstep] at h; exact absurd h (by simp)
      | some p =>
          obtain ⟨evs, s1⟩ := p
          rw [hstep] at h
          cases hrest : simulate (fun t => rands (t + 1)) n s1 with
          | none => simp [hrest] at h
          | some q =>
              obtain ⟨tr2, s2⟩ := q
              simp only [hrest, Option.some.injEq, Prod.mk.injEq] at h
              obtain ⟨-, hs2⟩ := h
              subst hs2
              obtain ⟨hwf1, hm1, hh1⟩ :=
                stepTick_wf s (rands 0) evs s1 (fun j => hrand 0 j) hwf hstep
              obtain ⟨hwf2, hm2, hh2⟩ :=
                ih (fun t => rands (t + 1)) s1 tr2 s2
                  (fun t j => hrand (t + 1) j) hwf1 hrest
              exact ⟨hwf2, forall₂_monoStep_trans hm1 hm2, by rw [hh2, hh1]⟩

/-- Splitting a run: `m + n` ticks are `m` ticks followed by `n` ticks from
the intermediate state, with the random stream shifted accordingly. -/
theorem simulate_add :
    ∀ (m n : ℕ) (rands : ℕ → ℕ → ℚ) (s : RaceState) (tr : List RaceEvent)
      (s1 : RaceState),
      simulate rands m s = some (tr, s1) →
      simulate rands (m + n) s =
        match simulate (fun t => rands (t + m)) n s1 with
        | none => none
        | some (tr2, s2) => some (tr ++ tr2, s2) := by
  intro m
  induction m with
  | zero =>
      intro n rands s tr s1 h
      rw [simulate] at h
      simp only [Option.some.injEq, Prod.mk.injEq] at h
      obtain ⟨htr, hs1⟩ := h
      subst hs1
      subst htr
      simp only [Nat.zero_add, Nat.add_zero]
      cases hx : simulate rands n s with
      | none => rfl
      | some q => cases q; rfl
  | succ m ih =>
      intro n rands s tr s1 h
      rw [simulate] at h
      cases hstep : stepTick s (rands 0) with
      | none => rw [hstep] at h; exact absurd h (by simp)
      | some p =>
          obtain ⟨evs, sa⟩ := p
          rw [hstep] at h
          cases hrest : simulate (fun t => rands (t + 1)) m sa with
          | none => simp [hrest] at h
          | some q =>
              obtain ⟨trb, sb⟩ := q
              simp only [hrest, Option.some.injEq, Prod.mk.injEq] at h
              obtain ⟨htr, hsb⟩ := h
              subst hsb
              subst htr
              have hsum : m + 1 + n = (m + n) + 1 := by omega
              rw [hsum, simulate, hstep]
              simp only [ih n (fun t => rands (t + 1)) sa trb sb hrest]
              simp only [Nat.add_assoc]
              cases hx : simulate (fun t => rands (t + (m + 1))) n sb with
              | none => simp only [hx]
              | some q2 =>
                  cases q2
                  simp only [hx, List.append_assoc]

/-- The progress list built by `initializePositions` tracks the horse list. -/
theorem initial_tracks :
    ∀ (horses : List Horse), (∀ h ∈ horses, StatsInRange h) →
      List.Forall₂ Tracks horses (initialPositions horses)
  | [], _ => List.Forall₂.nil
  | h :: rest, hstats => by
      refine List.Forall₂.cons ⟨rfl, ?_⟩
        (initial_tracks rest (fun x hx => hstats x (List.mem_cons_of_mem h hx)))
      have hst0 := (hstats h (List.mem_cons_self h rest)).2.2.2.2.1
      refine ⟨le_refl 0, by norm_num, hst0, le_refl _, ?_⟩
      intro _
      rw [applyStaminaDrain]
      ring

/-- C5 — Along any run started by `start()` (stats on the 0–100 scale,
distinct ids, unit-interval random draws): positions never decrease and
effective stamina never increases between any two ticks `t1 ≤ t2`, every
position stays in `[0,1]`, and every effective stamina stays in
`[0, that competitor's stamina attribute]`. -/
theorem C5_monotonicity_boundedness
    (horses : List Horse) (conds : RaceConditions) (rands : ℕ → ℕ → ℚ)
    (t1 t2 : ℕ) (tr1 tr2 : List RaceEvent) (s1 s2 : RaceState)
    (hstats : ∀ h ∈ horses, StatsInRange h)
    (hids : (horses.map (fun h => h.id)).Nodup)
    (hrand : ∀ t j, 0 ≤ rands t j ∧ rands t j ≤ 1)
    (hle : t1 ≤ t2)
    (h1 : simulate rands t1 (start (construct horses conds)) = some (tr1, s1))
    (h2 : simulate rands t2 (start (construct horses conds)) = some (tr2, s2))
    (i : ℕ) (hi1 : i < s1.positions.length) (hi2 : i < s2.positions.length)
    (hih : i < horses.length) :
    (s1.positions.get ⟨i, hi1⟩).position ≤ (s2.positions.get ⟨i, hi2⟩).position ∧
    (s2.positions.get ⟨i, hi2⟩).stamina ≤ (s1.positions.get ⟨i, hi1⟩).stamina ∧
    0 ≤ (s2.positions.get ⟨i, hi2⟩).position ∧
    (s2.positions.get ⟨i, hi2⟩).position ≤ 1 ∧
    0 ≤ (s2.positions.get ⟨i, hi2⟩).stamina ∧
    (s2.positions.get ⟨i, hi2⟩).stamina ≤ (horses.get ⟨i, hih⟩).stamina := by
  have hhor0 : (start (construct horses conds)).horses = horses := by
    simp [start, construct]
  have hpos0 : (start (construct horses conds)).positions =
      initialPositions horses := by
    simp [start, construct]
  have hwf0 : StateWF (start (construct horses conds)) := by
    refine ⟨?_, ?_, ?_⟩
    · rw [hhor0]
      exact hids
    · rw [hhor0]
      exact hstats
    · rw [hhor0, hpos0]
      exact initial_tracks horses hstats
  obtain ⟨hwf1, hm01, hh1⟩ := simulate_wf t1 rands _ tr1 s1 hrand hwf0 h1
  obtain ⟨n, rfl⟩ : ∃ n, t2 = t1 + n := ⟨t2 - t1, by omega⟩
  rw [simulate_add t1 n rands _ tr1 s1 h1] at h2
  cases hrest : simulate (fun t => rands (t + t1)) n s1 with
  | none => rw [hrest] at h2; exact absurd h2 (by simp)
  | some q =>
      obtain ⟨trb, sb⟩ := q
      rw [hrest] at h2
      simp only [Option.some.injEq, Prod.mk.injEq] at h2
      obtain ⟨-, hsb⟩ := h2
      subst hsb
      obtain ⟨hwf2, hm12, hh2⟩ := simulate_wf n (fun t => rands (t + t1)) s1 trb sb
        (fun t j => hrand (t + t1) j) hwf1 hrest
      have hmono := (List.forall₂_iff_get.mp hm12).2 i hi1 hi2
      have hhor : sb.horses = horses := by
        rw [hh2, hh1]
        exact hhor0
      have htracks : List.Forall₂ Tracks horses sb.positions := by
        rw [← hhor]
        exact hwf2.2.2
      have hinv := (List.forall₂_iff_get.mp htracks).2 i hih hi2
      obtain ⟨-, hp0, hp1, hst0, hst1, -⟩ := hinv
      exact ⟨hmono.1, hmono.2, hp0, hp1, hst0, hst1⟩

/-- Witness for C5: one competitor, ticks 1 and 2 of a run from `start()`. -/
theorem C5_monotonicity_witness :
    ((([⟨0, 0, 0, 50, false⟩] : List HorsePosition).get ⟨0, by norm_num⟩).position ≤
      (([⟨0, 0, 0, 50, false⟩] : List HorsePosition).get ⟨0, by norm_num⟩).position) ∧
    ((([⟨0, 0, 0, 50, false⟩] : List HorsePosition).get ⟨0, by norm_num⟩).stamina ≤
      (([⟨0, 0, 0, 50, false⟩] : List HorsePosition).get ⟨0, by norm_num⟩).stamina) ∧
    (0 ≤ (([⟨0, 0, 0, 50, false⟩] : List HorsePosition).get ⟨0, by norm_num⟩).position) ∧
    ((([⟨0, 0, 0, 50, false⟩] : List HorsePosition).get ⟨0, by norm_num⟩).position ≤ 1) ∧
    (0 ≤ (([⟨0, 0, 0, 50, false⟩] : List HorsePosition).get ⟨0, by norm_num⟩).stamina) ∧
    ((([⟨0, 0, 0, 50, false⟩] : List HorsePosition).get ⟨0, by norm_num⟩).stamina ≤
      (([⟨0, 50, 50, 50, 50, .firm⟩] : List Horse).get ⟨0, by norm_num⟩).stamina) := by
  have hrun1 : simulate (fun _ _ => (1:ℚ)/2) 1
      (start (construct [⟨0, 50, 50, 50, 50, .firm⟩] ⟨.firm, .clear, 1200⟩)) =
      some ([RaceEvent.frame ⟨[⟨0, 0, 0, 50, false⟩], 0⟩],
        ⟨[⟨0, 50, 50, 50, 50, .firm⟩], ⟨.firm, .clear, 1200⟩,
          [⟨0, 0, 0, 50, false⟩], 1, true⟩) := by
    norm_num [simulate, stepTick, start, construct, initialPositions,
      calculateNextFrame, updateAllAux, updateHorse, calculateVelocity,
      getSurfaceBonus, applyStaminaFade, applyStaminaDrain, allFinished,
      findLeader, List.find?]
  have hrun2 : simulate (fun _ _ => (1:ℚ)/2) 2
      (start (construct [⟨0, 50, 50, 50, 50, .firm⟩] ⟨.firm, .clear, 1200⟩)) =
      some ([RaceEvent.frame ⟨[⟨0, 0, 0, 50, false⟩], 0⟩,
          RaceEvent.frame ⟨[⟨0, 0, 0, 50, false⟩], 0⟩],
        ⟨[⟨0, 50, 50, 50, 50, .firm⟩], ⟨.firm, .clear, 1200⟩,
          [⟨0, 0, 0, 50, false⟩], 2, true⟩) := by
    norm_num [simulate, stepTick, start, construct, initialPositions,
      calculateNextFrame, updateAllAux, updateHorse, calculateVelocity,
      getSurfaceBonus, applyStaminaFade, applyStaminaDrain, allFinished,
      findLeader, List.find?]
  have h := C5_monotonicity_boundedness [⟨0, 50, 50, 50, 50, .firm⟩]
    ⟨.firm, .clear, 1200⟩ (fun _ _ => (1:ℚ)/2) 1 2 _ _ _ _
    (by
      intro h hm
      rw [List.mem_singleton] at hm
      subst hm
      refine ⟨?_, ?_, ?_, ?_, ?_, ?_, ?_, ?_⟩ <;> norm_num)
    (by simp)
    (fun _ _ => ⟨by norm_num, by norm_num⟩)
    (by norm_num)
    hrun1 hrun2 0 (by norm_num) (by norm_num) (by norm_num)
  exact h
